import Mathlib

/-!
# Verification of the RAG pipeline core

A shallow embedding of the embedding + similarity-search core of the
repository (files `grimm_fairy_tales_rag_demo.py` and
`embedding-service/server.py`), together with theorems settling the
frozen claims about it.

External library operations (torch indexing, `torch.topk`, `torch.cat`,
the Python functions `base64.b64decode`, `bytes.decode`, `str.split`,
`re.split`) are modelled by explicit Lean functions whose doc comments
state which library operation they stand for; the repository functions
themselves (`last_token_pool`, `get_embeddings` postprocessing,
`chunk_text`, `search_chunks`, `generate_all_embeddings`,
`generate_embedding`) are translated line by line from the source.
-/

/- ## Pooling Engine: `last_token_pool` (grimm_fairy_tales_rag_demo.py, lines 29-37) -/

/-- Models indexing a sequence by a (possibly negative) integer index, as
torch advanced indexing does: a negative index `i` selects position
`length + i`.  Out-of-range accesses return `default` (they never arise
under the well-formedness hypotheses of the theorems below). -/
def pyGet {α : Type} [Inhabited α] (l : List α) (i : Int) : α :=
  if i < 0 then l.getD ((l.length : Int) + i).toNat default
  else l.getD i.toNat default

/-- Embedding of `last_token_pool(last_hidden_states, attention_mask)`.
The hidden states are a batch of rows, each row a sequence of per-token
states of type `α`; the attention mask is a parallel batch of 0/1 rows.
Line 31: `left_padding = (attention_mask[:, -1].sum() == attention_mask.shape[0])`;
line 33: `last_hidden_states[:, -1]`;
lines 35-37: `sequence_lengths = attention_mask.sum(dim=1) - 1` followed by
`last_hidden_states[arange(batch_size), sequence_lengths]`. -/
def last_token_pool {α : Type} [Inhabited α] (last_hidden_states : List (List α))
    (attention_mask : List (List Nat)) : List α :=
  if (attention_mask.map (fun row => row.getLastD 0)).sum = attention_mask.length then
    last_hidden_states.map (fun row => row.getLastD default)
  else
    (last_hidden_states.zip attention_mask).map
      (fun p => pyGet p.1 ((p.2.sum : Int) - 1))

/- ## Embedding Normalizer (grimm_fairy_tales_rag_demo.py, lines 57-61) -/

/-- Models the default `eps` of `torch.nn.functional.normalize`. -/
noncomputable def EPS : ℝ := 1 / 10 ^ 12

/-- Models the Euclidean (p = 2) norm of one row, as computed by
`F.normalize(embeddings, p=2, dim=1)`. -/
noncomputable def l2norm (v : List ℝ) : ℝ :=
  Real.sqrt (v.map (fun x => x ^ 2)).sum

/-- Models the action of `F.normalize(embeddings, p=2, dim=1)` on one row:
every component is divided by the norm clamped below by `EPS`
(torch computes `input / input.norm(...).clamp_min(eps)`). -/
noncomputable def F_normalize_row (v : List ℝ) : List ℝ :=
  v.map (fun x => x / max (l2norm v) EPS)

/-- Embedding of the postprocessing tail of `get_embeddings` (lines 57-61)
acting on a single pooled row: the dimension reduction
`if EMBEDDING_DIM and EMBEDDING_DIM < embeddings.shape[1]:
embeddings = embeddings[:, :EMBEDDING_DIM]` (the configured dimension `D`
is a parameter here, `D = 0` standing for an unset falsy value), followed
by `F.normalize(embeddings, p=2, dim=1)`. -/
noncomputable def truncate_normalize (D : Nat) (v : List ℝ) : List ℝ :=
  F_normalize_row (if D ≠ 0 ∧ D < v.length then v.take D else v)

/-- Embedding of the same postprocessing tail at the matrix level, where
`embeddings.shape[1]` is the common row width of the rectangular tensor
(read off the first row). -/
noncomputable def get_embeddings_tail (D : Nat) (M : List (List ℝ)) : List (List ℝ) :=
  (if D ≠ 0 ∧ D < (M.headD []).length then M.map (fun row => row.take D) else M).map
    F_normalize_row

/- ## Chunker: `chunk_text` (grimm_fairy_tales_rag_demo.py, lines 65-84) -/

/-- Models the whitespace test of the Python method `str.split()` with no
argument (ASCII whitespace characters). -/
def pyWs (c : Char) : Bool :=
  c = ' ' || c = '\t' || c = '\n' || c = '\x0b' || c = '\x0c' || c = '\r'

/-- Helper for `pyWords`: scans the characters, accumulating the current
word in reversed order. -/
def wordsAux : List Char → List Char → List (List Char)
  | acc, [] => if acc.isEmpty then [] else [acc.reverse]
  | acc, c :: cs =>
    if pyWs c then
      if acc.isEmpty then wordsAux [] cs else acc.reverse :: wordsAux [] cs
    else wordsAux (c :: acc) cs

/-- Models the Python method `str.split()` with no argument: maximal runs
of non-whitespace characters, empty pieces dropped. -/
def pyWords (s : List Char) : List (List Char) := wordsAux [] s

/-- Models the Python method `str.strip()`: removes leading and trailing
whitespace. -/
def pyStrip (s : List Char) : List Char :=
  ((s.dropWhile pyWs).reverse.dropWhile pyWs).reverse

/-- Embedding of line 74, the single-space join of chapter.strip().split():
collapse every whitespace run to a single space and trim the ends. -/
def pyClean (s : List Char) : List Char :=
  List.intercalate [' '] (pyWords (pyStrip s))

/-- Models the call on line 67 to re.split with the four-newline pattern: split at every
non-overlapping, leftmost occurrence of four consecutive newlines.  The
first argument accumulates the current piece in reversed order. -/
def splitQuadNL : List Char → List Char → List (List Char)
  | acc, '\n' :: '\n' :: '\n' :: '\n' :: rest => acc.reverse :: splitQuadNL [] rest
  | acc, c :: rest => splitQuadNL (c :: acc) rest
  | acc, [] => [acc.reverse]

/-- Models Python `enumerate` (and the index pairing of `torch.topk`
results): pairs every element with its position, starting at `i`. -/
def withIdx {α : Type} : Nat → List α → List (Nat × α)
  | _, [] => []
  | i, x :: xs => (i, x) :: withIdx (i + 1) xs

/-- Embedding of the chunk dictionary built on lines 77-82:
`{id: i, text: cleaned, length: len(cleaned), tokens: token_count}`. -/
structure Chunk where
  id : Nat
  text : String
  length : Nat
  tokens : Nat
deriving DecidableEq, Repr, Inhabited

/-- Embedding of `chunk_text(text)` (lines 65-84).  The tiktoken encoder
of line 70 is an external collaborator and enters only through the
abstract token counter `enc` (line 76, `len(encoder.encode(cleaned))`);
its value affects no claim.  Lines 73-82: enumerate the pieces, clean
each, keep those with `len(cleaned) > 100`, and record the dictionary. -/
def chunk_text (enc : List Char → Nat) (text : String) : List Chunk :=
  (withIdx 0 (splitQuadNL [] text.toList)).filterMap (fun p =>
    if 100 < (pyClean p.2).length then
      some { id := p.1, text := String.mk (pyClean p.2),
             length := (pyClean p.2).length, tokens := enc (pyClean p.2) }
    else none)

/-- The concrete document of the chunker claim:
`"AAAA\n\n\n\nshort\n\n\n\n" + "X" * 150`. -/
def testDoc : String :=
  "AAAA\n\n\n\nshort\n\n\n\n" ++ String.mk (List.replicate 150 'X')

/- ## Similarity Search Engine: `search_chunks` (grimm_fairy_tales_rag_demo.py, lines 87-116) -/

/-- Dot product of two rows, modelling one entry of the matrix product
`chunk_embeddings @ query_embedding.T` of line 97. -/
def dot (a b : List ℝ) : ℝ := (List.zipWith (fun x y => x * y) a b).sum

/-- A ranking order on (index, value) pairs refining the value ordering
used by `torch.topk(..., largest=True, sorted=True)`: larger value
first.  Between exactly equal values torch specifies no order (it
differs across the cpu, cuda and mps backends the demo may select), and
this model fixes the lower-index-first refinement only so that the
selection below is a function; properties that depend on this choice of
tie order are properties of the model, not of the program. -/
def topkRel (a b : Nat × ℝ) : Prop := b.2 < a.2 ∨ (a.2 = b.2 ∧ a.1 ≤ b.1)

noncomputable instance : DecidableRel topkRel := fun _ _ => Classical.propDecidable _

instance : IsTotal (Nat × ℝ) topkRel := by
  constructor
  intro a b
  rcases lt_trichotomy a.2 b.2 with h | h | h
  · exact Or.inr (Or.inl h)
  · rcases Nat.le_total a.1 b.1 with h1 | h1
    · exact Or.inl (Or.inr ⟨h, h1⟩)
    · exact Or.inr (Or.inr ⟨h.symm, h1⟩)
  · exact Or.inl (Or.inl h)

instance : IsTrans (Nat × ℝ) topkRel := by
  constructor
  intro a b c hab hbc
  rcases hab with h1 | ⟨h1, h1i⟩ <;> rcases hbc with h2 | ⟨h2, h2i⟩
  · exact Or.inl (h2.trans h1)
  · exact Or.inl (h2 ▸ h1)
  · exact Or.inl (h1 ▸ h2)
  · exact Or.inr ⟨h1.trans h2, h1i.trans h2i⟩

/-- Models `torch.topk(similarities, k, largest=True)` (line 101): the
entries are paired with their indices, ranked by value descending, and
the first `k` are returned as (index, value) pairs.  The relative order
of exactly equal values is unspecified by torch and device-dependent;
`topkRel` fixes one refinement of it, so only conclusions that hold
under every tie order are stated about the program. -/
noncomputable def torch_topk (sims : List ℝ) (k : Nat) : List (Nat × ℝ) :=
  (List.insertionSort topkRel (withIdx 0 sims)).take k

/-- Embedding of line 101 of `search_chunks`:
`torch.topk(similarities, k=min(TOP_K, len(similarities)), largest=True)`,
with the configured constant `TOP_K` as a parameter `k`. -/
noncomputable def search_topk (sims : List ℝ) (k : Nat) : List (Nat × ℝ) :=
  torch_topk sims (min k sims.length)

/-- Embedding of the result dictionary built on lines 109-114:
`{text, similarity, length, tokens}`. -/
structure SearchResult where
  text : String
  similarity : ℝ
  length : Nat
  tokens : Nat

/-- Embedding of `search_chunks` (lines 87-116).  The query embedding of
lines 92-93 is produced by the external encoder `ge` (a stand-in for
`get_embeddings` with the model, tokenizer and device fixed); line 97
computes the dot-product similarities, line 101 selects the top entries,
and lines 104-114 build one result record per selected index. -/
noncomputable def search_chunks (ge : List String → List (List ℝ)) (query : String)
    (chunks : List Chunk) (chunk_embeddings : List (List ℝ)) (k : Nat) :
    List SearchResult :=
  let qv := (ge [query]).headD []
  let sims := chunk_embeddings.map (fun row => dot row qv)
  (search_topk sims k).map (fun p =>
    { text := (chunks.getD p.1 default).text, similarity := p.2,
      length := (chunks.getD p.1 default).length,
      tokens := (chunks.getD p.1 default).tokens })

/- ## Batch Embedder: `generate_all_embeddings` (grimm_fairy_tales_rag_demo.py, lines 119-130) -/

/-- Models `range(0, n, B)` for a positive step `B` (line 124). -/
def pyRangeStep (n B : Nat) : List Nat :=
  (List.range ((n + B - 1) / B)).map (fun j => j * B)

/-- Models `torch.cat(tensors, dim=0)` (line 130): concatenation of the
row blocks, which raises `RuntimeError` when the list of tensors is
empty. -/
def torch_cat {V : Type} (ls : List (List V)) : Except String (List V) :=
  if ls.isEmpty then .error "torch.cat(): expected a non-empty list of Tensors"
  else .ok ls.flatten

/-- Embedding of `generate_all_embeddings(chunks, ...)` (lines 119-130):
slice the chunk list into contiguous batches of `B = BATCH_SIZE` (the
configured constant is a parameter here), embed the text of each batch
with the external encoder `ge` (a stand-in for `get_embeddings` with the
model fixed; the embedding rows have abstract type `V`), and concatenate
the per-batch results. -/
def generate_all_embeddings {V : Type} (ge : List String → List V) (B : Nat)
    (chunks : List Chunk) : Except String (List V) :=
  torch_cat ((pyRangeStep chunks.length B).map (fun i =>
    ge (((chunks.drop i).take B).map Chunk.text)))

/- ## Embedding Service: `generate_embedding` (embedding-service/server.py, lines 49-133) -/

/-- Value of a base64 alphabet character, `none` outside the alphabet. -/
def b64Val (c : Char) : Option Nat :=
  if 'A' ≤ c ∧ c ≤ 'Z' then some (c.toNat - 65)
  else if 'a' ≤ c ∧ c ≤ 'z' then some (c.toNat - 97 + 26)
  else if '0' ≤ c ∧ c ≤ '9' then some (c.toNat - 48 + 52)
  else if c = '+' then some 62
  else if c = '/' then some 63
  else none

/-- The per-character loop of the CPython function a2b_base64 in its
lenient mode (the default validate=False of base64.b64decode).  State:
`quad` is the position inside the current group of four data characters,
`left` holds the pending bits of the group, `pads` counts padding
characters seen since the last data character, `acc` accumulates the
output bytes in reverse.  A character outside the alphabet is skipped
(it does not reset `pads`).  A padding character at quad position 0 or 1
is ignored; at quad position 2 or 3 it increments `pads`, and decoding
stops successfully once `quad + pads` reaches 4 (any remaining input is
ignored).  A data character resets `pads`, shifts its 6 bits in and
emits a byte at quad positions 1, 2 and 3.  At the end of the input,
quad position 1 is the one-leftover-character error and quad positions
2 and 3 are the incorrect-padding error. -/
def b64Aux : List Char → Nat → Nat → Nat → List Nat → Except String (List Nat)
  | [], quad, _, _, acc =>
    if quad = 0 then .ok acc.reverse
    else if quad = 1 then
      .error "Invalid base64-encoded string: number of data characters cannot be 1 more than a multiple of 4"
    else .error "Incorrect padding"
  | c :: cs, quad, left, pads, acc =>
    if c = '=' then
      if 2 ≤ quad ∧ 4 ≤ quad + (pads + 1) then .ok acc.reverse
      else if 2 ≤ quad then b64Aux cs quad left (pads + 1) acc
      else b64Aux cs quad left pads acc
    else
      match b64Val c with
      | none => b64Aux cs quad left pads acc
      | some v =>
        match quad with
        | 0 => b64Aux cs 1 v 0 acc
        | 1 => b64Aux cs 2 (v % 16) 0 ((left * 4 + v / 16) :: acc)
        | 2 => b64Aux cs 3 (v % 4) 0 ((left * 16 + v / 4) :: acc)
        | _ => b64Aux cs 0 0 0 ((left * 64 + v) :: acc)

/-- Models the Python call `base64.b64decode(prompt)` with its default
`validate=False` (line 97 of server.py), which runs the lenient
a2b_base64 loop `b64Aux`: characters outside the base64 alphabet are
silently discarded, not rejected; padding characters that do not
complete a group are ignored; a complete padding sequence ends the
decoding; and `binascii.Error` is raised only when the input ends inside
a group (one leftover data character, or two or three without enough
completing padding). -/
def pyB64Decode (s : String) : Except String (List Nat) :=
  b64Aux s.toList 0 0 0 []

/-- Models the Python call on line 98 of server.py decoding the bytes as
strict UTF-8, rejecting invalid start bytes, invalid
continuation bytes, overlong encodings, surrogates and values above
U+10FFFF. -/
def utf8Decode : List Nat → Except String (List Char)
  | [] => .ok []
  | b :: bs =>
    if b < 0x80 then (utf8Decode bs).map (fun cs => Char.ofNat b :: cs)
    else if 0xC2 ≤ b ∧ b ≤ 0xDF then
      match bs with
      | b2 :: bs2 =>
        if 0x80 ≤ b2 ∧ b2 ≤ 0xBF then
          (utf8Decode bs2).map (fun cs => Char.ofNat ((b - 0xC2 + 2) * 64 + (b2 - 0x80)) :: cs)
        else .error "invalid continuation byte"
      | [] => .error "unexpected end of data"
    else if 0xE0 ≤ b ∧ b ≤ 0xEF then
      match bs with
      | b2 :: b3 :: bs3 =>
        if (0x80 ≤ b2 ∧ b2 ≤ 0xBF) ∧ (b = 0xE0 → 0xA0 ≤ b2) ∧ (b = 0xED → b2 ≤ 0x9F) ∧
           (0x80 ≤ b3 ∧ b3 ≤ 0xBF) then
          (utf8Decode bs3).map (fun cs =>
            Char.ofNat ((b - 0xE0) * 4096 + (b2 - 0x80) * 64 + (b3 - 0x80)) :: cs)
        else .error "invalid continuation byte"
      | _ => .error "unexpected end of data"
    else if 0xF0 ≤ b ∧ b ≤ 0xF4 then
      match bs with
      | b2 :: b3 :: b4 :: bs4 =>
        if (0x80 ≤ b2 ∧ b2 ≤ 0xBF) ∧ (b = 0xF0 → 0x90 ≤ b2) ∧ (b = 0xF4 → b2 ≤ 0x8F) ∧
           (0x80 ≤ b3 ∧ b3 ≤ 0xBF) ∧ (0x80 ≤ b4 ∧ b4 ≤ 0xBF) then
          (utf8Decode bs4).map (fun cs =>
            Char.ofNat ((b - 0xF0) * 262144 + (b2 - 0x80) * 4096 + (b3 - 0x80) * 64 + (b4 - 0x80)) :: cs)
        else .error "invalid continuation byte"
      | _ => .error "unexpected end of data"
    else .error "invalid start byte"

/-- Embedding of the request handler `generate_embedding` of server.py
(lines 49-133), after JSON parsing has produced the optional fields
`prompt` and `encoding` (line 75 defaults a missing `encoding` to
`"plain"`).  Line 80, `if not prompt`, rejects a missing or empty prompt
with status 422.  Lines 93-113: when `encoding == "base64"`, the prompt
is base64-decoded and then UTF-8-decoded, each failure yielding a 422
response; any other encoding value leaves the prompt as literal text
(line 115).  Line 120 invokes the external embedding model, abstracted
here as `encode` with an abstract result type `E`; the error response
carries the HTTP status code and a detail string. -/
def generate_embedding {E : Type} (encode : String → E) (prompt : Option String)
    (encoding : Option String) : Except (Nat × String) E :=
  let enc := encoding.getD "plain"
  match prompt with
  | none => .error (422, "Missing prompt field")
  | some p =>
    if p = "" then .error (422, "Missing prompt field")
    else if enc = "base64" then
      match pyB64Decode p with
      | .error e => .error (422, "Invalid base64 encoding: " ++ e)
      | .ok bytes =>
        match utf8Decode bytes with
        | .error e => .error (422, "Invalid UTF-8 content: " ++ e)
        | .ok cs => .ok (encode (String.mk cs))
    else .ok (encode p)

/- ## Helper lemmas -/

lemma getLastD_mem {α : Type} (l : List α) (d : α) (h : l ≠ []) : l.getLastD d ∈ l := by
  induction l with
  | nil => exact absurd rfl h
  | cons a t ih =>
    cases t with
    | nil => simp
    | cons b u => simpa using Or.inr (ih (by simp))

lemma getLastD_eq_getD {α : Type} (l : List α) (d : α) (h : l ≠ []) :
    l.getLastD d = l.getD (l.length - 1) d := by
  induction l with
  | nil => exact absurd rfl h
  | cons a t ih =>
    cases t with
    | nil => simp
    | cons b u =>
      have := ih (by simp)
      simpa using this

lemma sum_le_length_of_le_one (l : List Nat) (h : ∀ x ∈ l, x ≤ 1) : l.sum ≤ l.length := by
  induction l with
  | nil => simp
  | cons a t ih =>
    have ha := h a (by simp)
    have ht := ih (fun x hx => h x (by simp [hx]))
    simp only [List.sum_cons, List.length_cons]
    omega

lemma sum_eq_length_iff_all_one (l : List Nat) (h : ∀ x ∈ l, x ≤ 1) :
    l.sum = l.length ↔ ∀ x ∈ l, x = 1 := by
  induction l with
  | nil => simp
  | cons a t ih =>
    have ha := h a (by simp)
    have ht : ∀ x ∈ t, x ≤ 1 := fun x hx => h x (by simp [hx])
    have hts := sum_le_length_of_le_one t ht
    constructor
    · intro hs
      have haa : a = 1 := by
        simp only [List.sum_cons, List.length_cons] at hs
        omega
      have : t.sum = t.length := by
        simp only [List.sum_cons, List.length_cons] at hs
        omega
      intro x hx
      rcases List.mem_cons.mp hx with rfl | hx
      · exact haa
      · exact ((ih ht).mp this) x hx
    · intro hall
      have : t.sum = t.length := (ih ht).mpr (fun x hx => hall x (by simp [hx]))
      simp only [List.sum_cons, List.length_cons, hall a (by simp), this]
      omega

/-- C1: for every batch of hidden states and a parallel 0/1 attention
mask with nonempty rows, `last_token_pool` returns, for each row
independently, the hidden state of the last non-padding token: when the
mask value at the final position is 1 for every sequence in the batch
(left-padding), the output row is the hidden state at the final sequence
position; otherwise (right-padding), for every row with at least one
attended token the output row is the hidden state at index
`sum(mask) - 1`. -/
theorem last_token_pool_selects_last_valid {α : Type} [Inhabited α]
    (h : List (List α)) (m : List (List Nat))
    (hlen : h.length = m.length)
    (h01 : ∀ row ∈ m, ∀ v ∈ row, v ≤ 1)
    (hne : ∀ row ∈ m, row ≠ []) :
    ((∀ row ∈ m, row.getLastD 0 = 1) →
      ∀ i, i < m.length →
        (last_token_pool h m).getD i default = (h.getD i []).getLastD default) ∧
    ((¬ ∀ row ∈ m, row.getLastD 0 = 1) →
      ∀ i, i < m.length → 1 ≤ (m.getD i []).sum →
        (last_token_pool h m).getD i default
          = (h.getD i []).getD ((m.getD i []).sum - 1) default) := by
  have hcond : ((m.map (fun row => row.getLastD 0)).sum = m.length)
      ↔ (∀ row ∈ m, row.getLastD 0 = 1) := by
    have hb : ∀ x ∈ m.map (fun row => row.getLastD 0), x ≤ 1 := by
      intro x hx
      rcases List.mem_map.mp hx with ⟨row, hrow, rfl⟩
      exact h01 row hrow _ (getLastD_mem row 0 (hne row hrow))
    have := sum_eq_length_iff_all_one _ hb
    rw [List.length_map] at this
    rw [this]
    simp [List.mem_map]
  constructor
  · intro hall i hi
    have hi' : i < h.length := by omega
    unfold last_token_pool
    rw [if_pos (hcond.mpr hall)]
    rw [List.getD_eq_getElem _ _ (by simpa using hi'), List.getElem_map,
      List.getD_eq_getElem _ _ hi']
  · intro hnall i hi hsum
    have hi' : i < h.length := by omega
    have hiz : i < (h.zip m).length := by
      rw [List.length_zip]
      omega
    have hm : m.getD i [] = m[i] := List.getD_eq_getElem _ _ hi
    have hh : h.getD i [] = h[i] := List.getD_eq_getElem _ _ hi'
    rw [hm] at hsum
    unfold last_token_pool
    rw [if_neg (fun hc => hnall (hcond.mp hc))]
    rw [List.getD_eq_getElem _ _ (by simpa using hiz), List.getElem_map, List.getElem_zip,
      hm, hh]
    dsimp only
    unfold pyGet
    rw [if_neg (by omega)]
    rw [show ((m[i].sum : Int) - 1).toNat = m[i].sum - 1 by omega]

/-- Witness for C1 at a concrete right-padded batch: hidden states
`[[10, 20], [30, 40]]` with mask `[[1, 1], [1, 0]]` pool row 0 to the
state at index `sum(mask) - 1 = 1`, that is 20. -/
theorem last_token_pool_selects_last_valid_witness :
    (last_token_pool [[10, 20], [30, 40]] [[1, 1], [1, 0]] : List Nat).getD 0 default = 20 := by
  have H := (last_token_pool_selects_last_valid [[10, 20], [30, 40]] [[1, 1], [1, 0]]
    (by decide) (by decide) (by decide)).2 (by decide) 0 (by decide) (by decide)
  exact H.trans (by decide)

/-- C4 (counterexample): on the batch with hidden states
`[[10, 20], [30, 40]]` and attention mask `[[1, 1], [0, 0]]`, whose second
sequence has an all-zero mask, `last_token_pool` raises no error: the
computed `last_valid_index = -1` wraps around and silently selects the
hidden state 40 at the last index of row 1. -/
theorem last_token_pool_zero_mask_counterexample :
    last_token_pool [[10, 20], [30, 40]] [[1, 1], [0, 0]] = [20, 40] := by decide

/-- C4 (amended): for every batch containing a sequence whose attention
mask is all zero, `last_token_pool` does not fail: the computed
`last_valid_index = -1` for that row wraps around (torch negative
indexing) and the returned row is the hidden state at the final sequence
position. -/
theorem last_token_pool_zero_mask_wraps {α : Type} [Inhabited α]
    (h : List (List α)) (m : List (List Nat))
    (hlen : h.length = m.length)
    (h01 : ∀ row ∈ m, ∀ v ∈ row, v ≤ 1)
    (hne : ∀ row ∈ m, row ≠ [])
    (hpar : ∀ j, j < m.length → (h.getD j []).length = (m.getD j []).length)
    (i : Nat) (hi : i < m.length)
    (hzero : ∀ v ∈ m.getD i [], v = 0) :
    (last_token_pool h m).getD i default = (h.getD i []).getLastD default := by
  have hi' : i < h.length := by omega
  have hm : m.getD i [] = m[i] := List.getD_eq_getElem _ _ hi
  have hh : h.getD i [] = h[i] := List.getD_eq_getElem _ _ hi'
  have hmne : m[i] ≠ [] := hne _ (List.getElem_mem hi)
  have hlh : (h.getD i []).length = (m.getD i []).length := hpar i hi
  have hhne : h[i] ≠ [] := by
    rw [hm, hh] at hlh
    intro hcon
    rw [hcon] at hlh
    exact hmne (List.eq_nil_of_length_eq_zero hlh.symm)
  have hsum0 : m[i].sum = 0 := by
    apply List.sum_eq_zero
    intro x hx
    exact hzero x (by rw [hm]; exact hx)
  have hnall : ¬ (m.map (fun row => row.getLastD 0)).sum = m.length := by
    intro hc
    have hb : ∀ x ∈ m.map (fun row => row.getLastD 0), x ≤ 1 := by
      intro x hx
      rcases List.mem_map.mp hx with ⟨row, hrow, rfl⟩
      exact h01 row hrow _ (getLastD_mem row 0 (hne row hrow))
    have hall := (sum_eq_length_iff_all_one _ hb).mp (by simpa using hc)
    have h1 : m[i].getLastD 0 = 1 := hall _ (List.mem_map_of_mem _ (List.getElem_mem hi))
    have h0 : m[i].getLastD 0 = 0 := hzero _ (by rw [hm]; exact getLastD_mem _ _ hmne)
    omega
  have hiz : i < (h.zip m).length := by
    rw [List.length_zip]
    omega
  unfold last_token_pool
  rw [if_neg hnall]
  rw [List.getD_eq_getElem _ _ (by simpa using hiz), List.getElem_map, List.getElem_zip, hh]
  dsimp only
  unfold pyGet
  rw [hsum0]
  rw [if_pos (by omega)]
  rw [show ((h[i].length : Int) + (((0 : Nat) : Int) - 1)).toNat = h[i].length - 1 by omega]
  rw [getLastD_eq_getD _ _ hhne]

/-- Witness for the amended C4 at the concrete batch of the
counterexample: row 1 has an all-zero mask and pools to the hidden state
40 at the final position. -/
theorem last_token_pool_zero_mask_wraps_witness :
    (last_token_pool [[10, 20], [30, 40]] [[1, 1], [0, 0]] : List Nat).getD 1 default = 40 := by
  have H := last_token_pool_zero_mask_wraps [[10, 20], [30, 40]] [[1, 1], [0, 0]]
    (by decide) (by decide) (by decide) (by decide) 1 (by decide) (by decide)
  exact H.trans (by decide)

/-- C5 (counterexample): the all-zero vector `[0, 0]` has Euclidean norm
zero, yet normalization raises no `DegenerateVectorError`: `F.normalize`
clamps the denominator to `eps` and returns the all-zero vector. -/
theorem normalize_zero_counterexample :
    F_normalize_row [0, 0] = [0, 0] := by
  simp [F_normalize_row]

/-- C5 (amended): an all-zero input vector is not rejected: the
denominator of `F.normalize` is the norm clamped below by
`eps = 1e-12`, so it is always strictly positive (no division by an
exactly zero norm ever happens), and the all-zero vector of any length is
returned unchanged as the all-zero vector instead of an error. -/
theorem normalize_clamps_zero_norm :
    (∀ v : List ℝ, 0 < max (l2norm v) EPS) ∧
    (∀ n : Nat, F_normalize_row (List.replicate n 0) = List.replicate n 0) := by
  constructor
  · intro v
    have hEPS : (0 : ℝ) < EPS := by
      unfold EPS
      norm_num
    exact lt_of_lt_of_le hEPS (le_max_right _ _)
  · intro n
    unfold F_normalize_row
    rw [List.map_replicate, zero_div]

/-- C7: the Normalizer first truncates the vector to its first `D`
components when the configured dimension `D` is set (nonzero) and smaller
than the vector length, then L2-normalizes the truncated vector; when
`D ≥ N` the truncation step is a no-op; in particular the input
`[3, 4, 0, 0]` with target dimension 2 yields `[0.6, 0.8]`. -/
theorem truncate_then_normalize :
    (∀ (D : Nat) (v : List ℝ), D ≠ 0 → D < v.length →
      truncate_normalize D v = F_normalize_row (v.take D)) ∧
    (∀ (D : Nat) (v : List ℝ), v.length ≤ D →
      truncate_normalize D v = F_normalize_row v) ∧
    truncate_normalize 2 [3, 4, 0, 0] = [0.6, 0.8] := by
  refine ⟨?_, ?_, ?_⟩
  · intro D v hD hlt
    unfold truncate_normalize
    rw [if_pos ⟨hD, hlt⟩]
  · intro D v hle
    unfold truncate_normalize
    rw [if_neg (fun hc => absurd hc.2 (by omega))]
  · have hnorm : l2norm [3, 4] = 5 := by
      unfold l2norm
      norm_num
      rw [show (25 : ℝ) = 5 ^ 2 by norm_num]
      exact Real.sqrt_sq (by norm_num)
    have hmax : max (l2norm [3, 4]) EPS = 5 := by
      rw [hnorm]
      apply max_eq_left
      unfold EPS
      norm_num
    unfold truncate_normalize
    rw [if_pos (by norm_num)]
    unfold F_normalize_row
    rw [show ([3, 4, 0, 0] : List ℝ).take 2 = [3, 4] from rfl, hmax]
    norm_num

/-- Witness for C7: applying the truncation branch at the concrete input
`[1, 2, 3]` with `D = 2` normalizes the fixed slice `[1, 2]`. -/
theorem truncate_then_normalize_witness :
    truncate_normalize 2 [1, 2, 3] = F_normalize_row [1, 2] := by
  have H := truncate_then_normalize.1 2 [1, 2, 3] (by norm_num) (by norm_num)
  exact H.trans rfl

/- ## Chunker id lemmas -/

lemma chunkPieces_mem (enc : List Char → Nat) (pieces : List (List Char)) (k : Nat)
    (c : Chunk)
    (hc : c ∈ (withIdx k pieces).filterMap (fun p =>
      if 100 < (pyClean p.2).length then
        some { id := p.1, text := String.mk (pyClean p.2),
               length := (pyClean p.2).length, tokens := enc (pyClean p.2) }
      else none)) :
    ∃ j, j < pieces.length ∧ c.id = k + j ∧
      c.text = String.mk (pyClean (pieces.getD j [])) ∧
      c.length = (pyClean (pieces.getD j [])).length ∧
      100 < (pyClean (pieces.getD j [])).length := by
  induction pieces generalizing k with
  | nil => simp [withIdx] at hc
  | cons p ps ih =>
    simp only [withIdx, List.filterMap_cons] at hc
    by_cases h100 : 100 < (pyClean p).length
    · rw [if_pos h100] at hc
      rcases List.mem_cons.mp hc with rfl | hc
      · exact ⟨0, by simp, by simp, by simp, by simp, by simpa using h100⟩
      · rcases ih (k + 1) hc with ⟨j, hj, hid, htext, hlen2, h100j⟩
        exact ⟨j + 1, by simpa using hj, by omega, by simpa using htext,
          by simpa using hlen2, by simpa using h100j⟩
    · rw [if_neg h100] at hc
      rcases ih (k + 1) hc with ⟨j, hj, hid, htext, hlen2, h100j⟩
      exact ⟨j + 1, by simpa using hj, by omega, by simpa using htext,
        by simpa using hlen2, by simpa using h100j⟩

lemma chunkPieces_id_lb (enc : List Char → Nat) (pieces : List (List Char)) (k : Nat)
    (c : Chunk)
    (hc : c ∈ (withIdx k pieces).filterMap (fun p =>
      if 100 < (pyClean p.2).length then
        some { id := p.1, text := String.mk (pyClean p.2),
               length := (pyClean p.2).length, tokens := enc (pyClean p.2) }
      else none)) :
    k ≤ c.id := by
  rcases chunkPieces_mem enc pieces k c hc with ⟨j, _, hid, _⟩
  omega

lemma chunkPieces_pairwise (enc : List Char → Nat) (pieces : List (List Char)) (k : Nat) :
    ((withIdx k pieces).filterMap (fun p =>
      if 100 < (pyClean p.2).length then
        some ({ id := p.1, text := String.mk (pyClean p.2),
                length := (pyClean p.2).length, tokens := enc (pyClean p.2) } : Chunk)
      else none)).Pairwise (fun a b => a.id < b.id) := by
  induction pieces generalizing k with
  | nil => simp [withIdx]
  | cons p ps ih =>
    simp only [withIdx, List.filterMap_cons]
    by_cases h100 : 100 < (pyClean p).length
    · rw [if_pos h100]
      refine List.Pairwise.cons ?_ (ih (k + 1))
      intro b hb
      have := chunkPieces_id_lb enc ps (k + 1) b hb
      simp only
      omega
    · rw [if_neg h100]
      exact ih (k + 1)

set_option maxRecDepth 100000 in
/-- C3 (counterexample): the document
`"AAAA\n\n\n\nshort\n\n\n\n" + "X" * 150` with the minimum length 100
produces exactly one chunk, but its id is 2, not 0: `chunk_text` stores
the index of the piece in the original split, so discarded pieces do
consume ids. -/
theorem chunk_text_ids_counterexample :
    (chunk_text List.length testDoc).length = 1 ∧
    (chunk_text List.length testDoc).map Chunk.id = [2] := by
  constructor
  · decide
  · decide

set_option maxRecDepth 100000 in
/-- C3 (amended): each surviving chunk carries the index of its piece in
the original delimiter split as its id (so discarded pieces do consume
ids and the ids of the surviving set need not start at 0 nor be dense);
ids are strictly increasing in document order, each chunk text is the
cleaned text of the piece at its id, longer than 100 characters; the
document `"AAAA\n\n\n\nshort\n\n\n\n" + "X" * 150` produces exactly one
chunk, and that chunk has id 2. -/
theorem chunk_text_ids_amended (enc : List Char → Nat) (text : String) :
    ((chunk_text enc text).Pairwise (fun a b => a.id < b.id)) ∧
    (∀ c ∈ chunk_text enc text,
      c.id < (splitQuadNL [] text.toList).length ∧
      c.text = String.mk (pyClean ((splitQuadNL [] text.toList).getD c.id [])) ∧
      100 < (pyClean ((splitQuadNL [] text.toList).getD c.id [])).length) ∧
    (chunk_text List.length testDoc).map Chunk.id = [2] := by
  refine ⟨chunkPieces_pairwise enc _ 0, ?_, by decide⟩
  intro c hc
  rcases chunkPieces_mem enc (splitQuadNL [] text.toList) 0 c hc with
    ⟨j, hj, hid, htext, _, h100⟩
  have hj' : c.id = j := by omega
  subst hj'
  exact ⟨hj, htext, h100⟩

set_option maxRecDepth 100000 in
/-- Witness for the amended C3: the single surviving chunk of the test
document points back, through its id 2, to the cleaned third piece of the
original split, the 150 X characters. -/
theorem chunk_text_ids_amended_witness :
    String.mk (pyClean ((splitQuadNL [] testDoc.toList).getD 2 [])) =
      String.mk (List.replicate 150 'X') := by
  have H := (chunk_text_ids_amended List.length testDoc).2.1
    { id := 2, text := String.mk (List.replicate 150 'X'),
      length := 150, tokens := 150 } (by decide)
  exact H.2.1.symm

/- ## Search engine lemmas -/

lemma withIdx_length {α : Type} (k : Nat) (l : List α) : (withIdx k l).length = l.length := by
  induction l generalizing k with
  | nil => rfl
  | cons a t ih => simp [withIdx, ih]

lemma mem_withIdx {α : Type} (d : α) (k : Nat) (l : List α) (p : Nat × α)
    (hp : p ∈ withIdx k l) :
    ∃ j, j < l.length ∧ p.1 = k + j ∧ p.2 = l.getD j d := by
  induction l generalizing k with
  | nil => simp [withIdx] at hp
  | cons a t ih =>
    simp only [withIdx, List.mem_cons] at hp
    rcases hp with rfl | hp
    · exact ⟨0, by simp, by simp, by simp⟩
    · rcases ih (k + 1) hp with ⟨j, hj, h1, h2⟩
      exact ⟨j + 1, by simpa using hj, by omega, by simpa using h2⟩

lemma search_topk_sub (sims : List ℝ) (k : Nat) (p : Nat × ℝ)
    (hp : p ∈ search_topk sims k) : p ∈ withIdx 0 sims := by
  have h1 : p ∈ List.insertionSort topkRel (withIdx 0 sims) :=
    List.mem_of_mem_take hp
  exact (List.perm_insertionSort topkRel (withIdx 0 sims)).mem_iff.mp h1

lemma search_topk_length (sims : List ℝ) (k : Nat) :
    (search_topk sims k).length = min k sims.length := by
  unfold search_topk torch_topk
  rw [List.length_take, (List.perm_insertionSort topkRel (withIdx 0 sims)).length_eq,
    withIdx_length]
  omega

lemma search_topk_sorted (sims : List ℝ) (k : Nat) :
    (search_topk sims k).Pairwise topkRel := by
  have hs : (List.insertionSort topkRel (withIdx 0 sims)).Pairwise topkRel :=
    List.sorted_insertionSort topkRel (withIdx 0 sims)
  exact hs.sublist (List.take_sublist _ _)

lemma search_topk_score (sims : List ℝ) (k : Nat) (p : Nat × ℝ)
    (hp : p ∈ search_topk sims k) :
    p.1 < sims.length ∧ p.2 = sims.getD p.1 0 := by
  rcases mem_withIdx 0 0 sims p (search_topk_sub sims k p hp) with ⟨j, hj, h1, h2⟩
  constructor
  · omega
  · rw [h2, show p.1 = j by omega]

/-- C9 (counterexample): the result records of `search_chunks` do not
carry the matched chunk id: two corpora whose single chunks differ only
in their ids (0 versus 5) produce identical result lists, so no
`chunk_id` field is present in (or recoverable from) a result. -/
theorem search_results_no_id_counterexample :
    search_chunks (fun _ => [[(1 : ℝ)]]) "q"
        [{ id := 0, text := "tale", length := 4, tokens := 7 }] [[0.5]] 6
      = search_chunks (fun _ => [[(1 : ℝ)]]) "q"
        [{ id := 5, text := "tale", length := 4, tokens := 7 }] [[0.5]] 6 ∧
    ({ id := 0, text := "tale", length := 4, tokens := 7 } : Chunk).id
      ≠ ({ id := 5, text := "tale", length := 4, tokens := 7 } : Chunk).id := by
  constructor
  · simp only [search_chunks]
    apply List.map_congr_left
    intro p _
    rcases p with ⟨i, s⟩
    cases i with
    | zero => rfl
    | succ n => rfl
  · decide

/-- C9 (amended): each element of the list returned by `search_chunks` is
a result record carrying the matched chunk text, its similarity score,
its character length and its token count (but not the chunk id), ordered
by descending similarity score; there are `min k N` of them and each
matches some chunk row, with the score equal to the dot product of that
row with the query embedding. -/
theorem search_results_fields (ge : List String → List (List ℝ)) (q : String)
    (chunks : List Chunk) (M : List (List ℝ)) (k : Nat)
    (hlen : M.length = chunks.length) :
    (search_chunks ge q chunks M k).length = min k chunks.length ∧
    ((search_chunks ge q chunks M k).map SearchResult.similarity).Pairwise
      (fun a b => b ≤ a) ∧
    (∀ r ∈ search_chunks ge q chunks M k, ∃ i, i < chunks.length ∧
      r.text = (chunks.getD i default).text ∧
      r.length = (chunks.getD i default).length ∧
      r.tokens = (chunks.getD i default).tokens ∧
      r.similarity = dot (M.getD i []) ((ge [q]).headD [])) := by
  unfold search_chunks
  refine ⟨?_, ?_, ?_⟩
  · rw [List.length_map, search_topk_length, List.length_map]
    omega
  · rw [List.map_map, List.pairwise_map]
    refine (search_topk_sorted _ k).imp ?_
    rintro a b (h1 | ⟨heq, _⟩)
    · exact le_of_lt h1
    · exact le_of_eq heq.symm
  · intro r hr
    rcases List.mem_map.mp hr with ⟨p, hp, rfl⟩
    have h := search_topk_score _ k p hp
    rw [List.length_map] at h
    refine ⟨p.1, by omega, rfl, rfl, rfl, ?_⟩
    simp only
    rw [h.2, List.getD_eq_getElem _ _ (by simpa using h.1), List.getElem_map,
      List.getD_eq_getElem _ _ h.1]

/-- Witness for the amended C9 at a one-chunk corpus with k = 6: the
result list has length `min 6 1 = 1`. -/
theorem search_results_fields_witness :
    (search_chunks (fun _ => [[(1 : ℝ)]]) "q"
      [{ id := 0, text := "tale", length := 4, tokens := 7 }] [[0.5]] 6).length
      = min 6 1 := by
  exact (search_results_fields (fun _ => [[(1 : ℝ)]]) "q"
    [{ id := 0, text := "tale", length := 4, tokens := 7 }] [[0.5]] 6 (by simp)).1

/- ## Batch embedder lemmas -/

lemma ceil_mul_ge (n B : Nat) (hB : 1 ≤ B) : n ≤ ((n + B - 1) / B) * B := by
  have hdm := Nat.div_add_mod (n + B - 1) B
  have hr : (n + B - 1) % B < B := Nat.mod_lt _ (by omega)
  set q := (n + B - 1) / B
  set r := (n + B - 1) % B
  have : B * q + r = n + B - 1 := hdm
  have hq : q * B = B * q := Nat.mul_comm q B
  omega

lemma join_slices {α : Type} (B : Nat) (hB : 1 ≤ B) (k : Nat) (l : List α)
    (hk : l.length ≤ k * B) :
    ((List.range k).map (fun j => (l.drop (j * B)).take B)).flatten = l := by
  induction k generalizing l with
  | zero =>
    have : l = [] := List.eq_nil_of_length_eq_zero (by simpa using hk)
    simp [this]
  | succ k ih =>
    rw [List.range_succ_eq_map, List.map_cons, List.map_map]
    have hzero : (l.drop (0 * B)).take B = l.take B := by simp
    have hrest : (List.range k).map ((fun j => (l.drop (j * B)).take B) ∘ Nat.succ)
        = (List.range k).map (fun j => ((l.drop B).drop (j * B)).take B) := by
      apply List.map_congr_left
      intro j _
      simp only [Function.comp]
      rw [List.drop_drop]
      rw [show Nat.succ j * B = B + j * B by rw [Nat.succ_mul]; omega]
    rw [hzero, hrest, List.flatten_cons]
    have hlen : (l.drop B).length ≤ k * B := by
      rw [List.length_drop]
      have hsm : (k + 1) * B = k * B + B := by ring
      omega
    rw [ih (l.drop B) hlen, List.take_append_drop]

lemma pyRangeStep_slices {α : Type} (B : Nat) (hB : 1 ≤ B) (l : List α) :
    ((pyRangeStep l.length B).map (fun i => (l.drop i).take B)).flatten = l := by
  unfold pyRangeStep
  rw [List.map_map]
  exact join_slices B hB _ l (ceil_mul_ge l.length B hB)

lemma pyRangeStep_ne_nil (n B : Nat) (hB : 1 ≤ B) (hn : 1 ≤ n) : pyRangeStep n B ≠ [] := by
  unfold pyRangeStep
  have : 1 ≤ (n + B - 1) / B := by
    apply Nat.le_div_iff_mul_le (by omega) |>.mpr
    omega
  intro hc
  have := congrArg List.length hc
  simp at this
  omega

/-- C6 (counterexample): on the empty chunk list the Batch Embedder does
not return a zero-row matrix: the final `torch.cat` receives an empty
list of tensors and raises, so the claim fails for the empty input
list. -/
theorem generate_all_embeddings_empty_counterexample :
    generate_all_embeddings (fun ts => ts.map String.length) 1 ([] : List Chunk)
      = .error "torch.cat(): expected a non-empty list of Tensors" := rfl

/-- C6 (amended): for every nonempty chunk list and batch size B ≥ 1,
and any fixed pointwise encoder (the underlying model held fixed, mapping
each text independently), the Batch Embedder returns one row per input
chunk with row i the encoding of text i, so batch size 1 and batch size
equal to the list length produce identical outputs; the empty list
instead makes `torch.cat` raise. -/
theorem generate_all_embeddings_order {V : Type} (f : String → V)
    (ge : List String → List V) (hge : ∀ ts, ge ts = ts.map f)
    (B : Nat) (hB : 1 ≤ B) (chunks : List Chunk) (hne : chunks ≠ []) :
    generate_all_embeddings ge B chunks = .ok (chunks.map (fun c => f c.text)) ∧
    generate_all_embeddings ge 1 chunks
      = generate_all_embeddings ge chunks.length chunks := by
  have main : ∀ B, 1 ≤ B →
      generate_all_embeddings ge B chunks = .ok (chunks.map (fun c => f c.text)) := by
    intro B hB
    have hls : (pyRangeStep chunks.length B).map
          (fun i => ge (((chunks.drop i).take B).map Chunk.text))
        = (pyRangeStep chunks.length B).map
          (fun i => ((chunks.drop i).take B).map (fun c => f c.text)) := by
      apply List.map_congr_left
      intro i _
      rw [hge, List.map_map]
      rfl
    have hnn : 1 ≤ chunks.length := by
      cases chunks with
      | nil => exact absurd rfl hne
      | cons a t => simp
    unfold generate_all_embeddings torch_cat
    rw [hls]
    rw [if_neg (by
      simp only [List.isEmpty_iff, List.map_eq_nil_iff]
      exact pyRangeStep_ne_nil chunks.length B hB hnn)]
    rw [show (pyRangeStep chunks.length B).map
          (fun i => ((chunks.drop i).take B).map (fun c => f c.text))
        = ((pyRangeStep chunks.length B).map
            (fun i => (chunks.drop i).take B)).map (List.map (fun c => f c.text)) by
      rw [List.map_map]
      rfl]
    rw [← List.map_flatten, pyRangeStep_slices B hB]
  have h1 := main B hB
  have h2 := main 1 (by omega)
  have hn : 1 ≤ chunks.length := by
    cases chunks with
    | nil => exact absurd rfl hne
    | cons a t => simp
  have h3 := main chunks.length hn
  exact ⟨h1, h2.trans h3.symm⟩

/-- Witness for the amended C6: a two-chunk corpus embedded with the
length encoder at batch size 1 yields one row per chunk, in order. -/
theorem generate_all_embeddings_order_witness :
    generate_all_embeddings (fun ts => ts.map String.length) 1
      [{ id := 0, text := "ab", length := 2, tokens := 1 },
       { id := 1, text := "c", length := 1, tokens := 1 }] = .ok [2, 1] := by
  have H := (generate_all_embeddings_order String.length
    (fun ts => ts.map String.length) (fun ts => rfl) 1 (by omega)
    [{ id := 0, text := "ab", length := 2, tokens := 1 },
     { id := 1, text := "c", length := 1, tokens := 1 }] (by simp)).1
  exact H.trans rfl

/-- C10: a request whose encoding field is neither "base64" nor "plain"
(any other string, or an absent field) is not rejected: the prompt is
silently treated as literal plain text and handed to the embedding
model. -/
theorem unknown_encoding_treated_as_plain {E : Type} (encode : String → E) (p : String)
    (hp : p ≠ "") (enc : Option String)
    (henc : enc = none ∨ ∃ s, enc = some s ∧ s ≠ "base64" ∧ s ≠ "plain") :
    generate_embedding encode (some p) enc = .ok (encode p) := by
  rcases henc with rfl | ⟨s, rfl, hs, _⟩
  · unfold generate_embedding
    simp [hp]
  · unfold generate_embedding
    simp [hp, hs]

/-- Witness for C10: the unrecognized encoding value "banana" is treated
as plain text and the prompt "hi" is embedded. -/
theorem unknown_encoding_treated_as_plain_witness :
    generate_embedding (fun s => s.length) (some "hi") (some "banana") = .ok 2 := by
  have H := unknown_encoding_treated_as_plain (fun s => s.length) "hi" (by decide)
    (some "banana") (Or.inr ⟨"banana", rfl, by decide, by decide⟩)
  exact H.trans rfl
